import Mathlib

set_option maxHeartbeats 1000000

/-!
Verification development for the mermadoc Markdown-to-DOCX converter.

This file shallowly embeds the core pipeline of `src/converter.ts`:
the diagram block scanner (`extractMermaidBlocks`), the render cache
(`renderMermaidToPng`), the Markdown rewriter (`preprocessMermaid`),
the natural-sort comparator (`naturalSort`), the section joiner, and
the conversion entry points (`convert`, `convertFile`,
`convertDirectory`, `convertFiles`), and proves the specified
properties about them.

Strings are modelled as lists of characters (`Str`), matching the
character-index arithmetic of the JavaScript source.  External
collaborators (the diagram renderer subprocess, the hash function, the
DOCX rendering engine, and the filesystem) are modelled as explicit
parameters and explicit state, so that every function here is pure and
executable.
-/

namespace Mermadoc

/-- Characters of a JavaScript string, indexed by position. -/
abbrev Str := List Char

/-- ASCII whitespace recognized by `String.prototype.trim` (the unicode
space classes are irrelevant to the sources considered here). -/
def isWS (c : Char) : Bool :=
  c = ' ' || c = '\t' || c = '\n' || c = '\r' || c = '\x0b' || c = '\x0c'

/-- Embedding of `String.prototype.trim`: strip leading and trailing whitespace. -/
def trim (s : Str) : Str :=
  ((s.dropWhile isWS).reverse.dropWhile isWS).reverse

/-- One fenced mermaid region found by the scanner; `startIndex` and
`endIndex` are half-open character offsets into the original text
(fields `code`, `startIndex`, `endIndex` of the `MermaidBlock`
interface in converter.ts). -/
structure MermaidBlock where
  code : Str
  startIndex : Nat
  endIndex : Nat
deriving DecidableEq, Repr

/-- The opening fence the regex `/```mermaid\n([\s\S]*?)```/` requires:
the literal tag immediately followed by a newline. -/
def openFence : Str := "```mermaid\n".toList

/-- The closing fence: three consecutive backticks, anywhere. -/
def closeFence : Str := "```".toList

/-- First index `i ≥ start` at which `needle` occurs in `hay`
(fuel-driven so that it is structurally recursive). -/
def findFromAux (hay needle : Str) : Nat → Nat → Option Nat
  | _, 0 => none
  | start, fuel+1 =>
    if needle.isPrefixOf (hay.drop start) then some start
    else findFromAux hay needle (start+1) fuel

/-- First occurrence of `needle` in `hay` at or after `start`. -/
def findFrom (hay needle : Str) (start : Nat) : Option Nat :=
  findFromAux hay needle start (hay.length + 1 - start)

/-- Scanning loop of `extractMermaidBlocks`: from position `pos`, find
the next opening fence, then the first closing fence after it; record
the block (body trimmed) and continue after the closing fence.  This
mirrors the global-regex `exec` loop; the fuel `md.length + 1` can
never be exhausted since each found block advances `pos` by at least
14 characters. -/
def extractAux (md : Str) : Nat → Nat → List MermaidBlock
  | _, 0 => []
  | pos, fuel+1 =>
    match findFrom md openFence pos with
    | none => []
    | some i =>
      match findFrom md closeFence (i + openFence.length) with
      | none => []
      | some j =>
        { code := trim ((md.take j).drop (i + openFence.length)),
          startIndex := i,
          endIndex := j + closeFence.length } ::
          extractAux md (j + closeFence.length) fuel

/-- Embedding of `extractMermaidBlocks` of converter.ts (lines 368-382). -/
def extractMermaidBlocks (md : Str) : List MermaidBlock :=
  extractAux md 0 (md.length + 1)

/-- Fixed text preceding the base64 payload in the rewriter's
replacement `\n\n![Mermaid Diagram](data:image/png;base64,...`. -/
def imgHead : Str := "\n\n![Mermaid Diagram](data:image/png;base64,".toList

/-- Fixed text closing the replacement: `)` and two newlines. -/
def imgTail : Str := ")\n\n".toList

/-- The `imgMarkdown` replacement string built at converter.ts line
449, as a function of the base64 payload. -/
def imgMarkdown (b64 : Str) : Str := imgHead ++ b64 ++ imgTail

/-- One iteration of the rewriting loop of `preprocessMermaid`
(converter.ts lines 443-463).  The state is the mutated text together
with the running `offset`.  `render` models the whole
render-read-base64 chain of lines 445-448: `some b64` when
`renderMermaidToPng` succeeds (yielding the base64 payload), `none`
when it throws — in which case the loop leaves the text and the
offset untouched (the catch branch only logs). -/
def rewriteStep (render : Str → Option Str) (st : Str × Int) (b : MermaidBlock) : Str × Int :=
  match render b.code with
  | some b64 =>
    let img := imgMarkdown b64
    let adjustedStart := ((b.startIndex : Int) + st.2).toNat
    let adjustedEnd := ((b.endIndex : Int) + st.2).toNat
    (st.1.take adjustedStart ++ img ++ st.1.drop adjustedEnd,
     st.2 + (img.length : Int) - ((b.endIndex : Int) - (b.startIndex : Int)))
  | none => st

/-- The full rewriting loop over a block list. -/
def rewriteBlocks (render : Str → Option Str) (blocks : List MermaidBlock) (st : Str × Int) : Str × Int :=
  blocks.foldl (rewriteStep render) st

/-- Embedding of `preprocessMermaid` of converter.ts (lines 433-466). -/
def preprocessMermaid (render : Str → Option Str) (markdown : Str) : Str :=
  let blocks := extractMermaidBlocks markdown
  if blocks.isEmpty then markdown
  else (rewriteBlocks render blocks (markdown, 0)).1

/-- Structural description of the rewritten document: untouched text
up to each block, then either the replacement image reference (render
succeeded) or the block's original fenced text (render failed, span
kept by falling through to the next block). -/
def rewriteSpec (render : Str → Option Str) (orig : Str) : List MermaidBlock → Nat → Str
  | [], p => orig.drop p
  | b :: rest, p =>
    match render b.code with
    | some b64 =>
      (orig.take b.startIndex).drop p ++ imgMarkdown b64 ++
        rewriteSpec render orig rest b.endIndex
    | none => rewriteSpec render orig rest p

/-- Cumulative length drift: the sum, over successfully rendered
blocks, of replacement length minus replaced-span length. -/
def cumDrift (render : Str → Option Str) : List MermaidBlock → Int
  | [] => 0
  | b :: rest =>
    (match render b.code with
     | some b64 => ((imgMarkdown b64).length : Int) - ((b.endIndex : Int) - (b.startIndex : Int))
     | none => 0) + cumDrift render rest

/-! ### Concrete inputs used by witnesses -/

/-- A two-diagram document used to witness the rewriter claims. -/
def mdTwo : Str := "A\n```mermaid\nX\n```\nB\n```mermaid\nY\n```\nC".toList

/-- A render function that always succeeds with a fixed payload. -/
def renderOk : Str → Option Str := fun _ => some ("Zm9v".toList)

/-- The second diagram block of `mdTwo`. -/
def blockTwo : MermaidBlock :=
  { code := "Y".toList, startIndex := 21, endIndex := 37 }

/-- A render function that fails exactly on the source text `Y`. -/
def renderFailY : Str → Option Str := fun c =>
  if c = "Y".toList then none else some ("Zm9v".toList)

/-! ### Render cache model -/

/-- External collaborators of `renderMermaidToPng`: the content hash
(md5 hex digest in the source, here an abstract function of the
diagram source text) and the deterministic behavior of the `mmdc`
subprocess on a given diagram source: whether it exits 0, and whether
it creates the output file. -/
structure RendererModel where
  hash : Str → Str
  exitOk : Str → Bool
  createsOutput : Str → Bool

/-- Scratch-directory state: the files present (by name) plus the
number of renderer invocations made so far. -/
structure CacheState where
  files : List Str
  renders : Nat
deriving DecidableEq

/-- Embedding of `path.join(tempDir, hash + ".mmd")`, relative to the temp dir. -/
def mmdPath (R : RendererModel) (code : Str) : Str := R.hash code ++ ".mmd".toList

/-- Embedding of `path.join(tempDir, hash + ".png")`, relative to the temp dir. -/
def pngPath (R : RendererModel) (code : Str) : Str := R.hash code ++ ".png".toList

/-- Embedding of `renderMermaidToPng` of converter.ts (lines 384-431) over explicit
state: if the output file named by the content hash already exists,
return it immediately (no renderer invocation); otherwise write the
input file, spawn the renderer once, and succeed exactly when it exits
0 and the output file exists. -/
def renderMermaidToPng (R : RendererModel) (code : Str) (st : CacheState) :
    Option Str × CacheState :=
  if pngPath R code ∈ st.files then (some (pngPath R code), st)
  else
    let files1 := (if R.createsOutput code then [pngPath R code] else []) ++
      mmdPath R code :: st.files
    let st1 : CacheState := { files := files1, renders := st.renders + 1 }
    if R.exitOk code && R.createsOutput code then (some (pngPath R code), st1)
    else (none, st1)

/-- The single-diagram document `\x60\x60\x60mermaid\nY\n\x60\x60\x60` and its one
block, whose source text equals that of `blockTwo`. -/
def blockSolo : MermaidBlock :=
  { code := "Y".toList, startIndex := 0, endIndex := 16 }

/-- The identity-hash renderer model that always succeeds, used by
witnesses. -/
def rendererAlwaysOk : RendererModel :=
  { hash := fun c => c, exitOk := fun _ => true, createsOutput := fun _ => true }

/-- An initially empty scratch directory. -/
def emptyCache : CacheState := { files := [], renders := 0 }

/-! ### Natural sort -/

/-- Run-collecting loop for the token regex `/(\d+)|(\D+)/g`: `acc`
holds the characters of the current run in reverse, `d` the run's
digit class. -/
def tokenizeGo (acc : Str) (d : Bool) : Str → List Str
  | [] => [acc.reverse]
  | c :: cs =>
    if c.isDigit == d then tokenizeGo (c :: acc) d cs
    else acc.reverse :: tokenizeGo [c] c.isDigit cs

/-- Embedding of `name.match(/(\d+)|(\D+)/g) || []`: the maximal alternating runs
of digits and non-digits of a name. -/
def tokenize : Str → List Str
  | [] => []
  | c :: cs => tokenizeGo [c] c.isDigit cs

/-- Embedding of `parseInt(tok, 10)` on a token produced by the tokenizer (or the
`""` padding): a number exactly for a nonempty all-digit run, `none`
(NaN) otherwise. -/
def tokNum (t : Str) : Option Nat :=
  if t ≠ [] ∧ t.all Char.isDigit = true then
    some (t.foldl (fun n c => n * 10 + (c.toNat - 48)) 0)
  else none

/-- Embedding of `localeCompare`, modelled as codepoint-lexicographic three-way
comparison (adequate for the ASCII file names this program sorts). -/
def strCmp : Str → Str → Int
  | [], [] => 0
  | [], _ :: _ => -1
  | _ :: _, [] => 1
  | a :: as, b :: bs => if a < b then -1 else if b < a then 1 else strCmp as bs

/-- One position of the comparison loop of `naturalSort`: when both
tokens parse as numbers they compare as integers, otherwise they
compare as strings. -/
def natCmpTok (aPart bPart : Str) : Int :=
  match tokNum aPart, tokNum bPart with
  | some m, some n => (m : Int) - (n : Int)
  | _, _ => strCmp aPart bPart

/-- Tail of the comparison loop once the first name's tokens are
exhausted (its positions read as `""`). -/
def padCmpRight : List Str → Int
  | [] => 0
  | b :: bs => if natCmpTok [] b ≠ 0 then natCmpTok [] b else padCmpRight bs

/-- Tail of the comparison loop once the second name's tokens are
exhausted. -/
def padCmpLeft : List Str → Int
  | [] => 0
  | a :: as => if natCmpTok a [] ≠ 0 then natCmpTok a [] else padCmpLeft as

/-- The `for` loop of `naturalSort` over the two token lists: first
nonzero pairwise comparison wins, missing tokens read as `""`. -/
def naturalSortTok : List Str → List Str → Int
  | [], bs => padCmpRight bs
  | a :: as, [] => if natCmpTok a [] ≠ 0 then natCmpTok a [] else padCmpLeft as
  | a :: as, b :: bs => if natCmpTok a b ≠ 0 then natCmpTok a b else naturalSortTok as bs

/-- Embedding of `naturalSort` of converter.ts (lines 553-573). -/
def naturalSort (a b : Str) : Int := naturalSortTok (tokenize a) (tokenize b)

/-- Embedding of `naturalSort` on whole file names. -/
def naturalSortS (a b : String) : Int := naturalSort a.toList b.toList

/-- Embedding of `files.sort(cmp)` — JavaScript's sort is stable (ES2019), modelled
by stable merge sort with `le a b := cmp a b ≤ 0`. -/
def sortFiles (cmp : String → String → Int) (l : List String) : List String :=
  l.mergeSort (fun a b => decide (cmp a b ≤ 0))

/-- Tokens handled by the comparator: every token the tokenizer emits
is a homogeneous run (all digits or all non-digits); the padding `""`
satisfies both. -/
def goodTok (t : Str) : Prop :=
  t.all Char.isDigit = true ∨ t.all (fun c => !c.isDigit) = true

/-- A non-numeric token sorting below every digit run: empty, or
starting with a character below `0`. -/
def belowTok (w : Str) : Prop :=
  w = [] ∨ ∃ d ds, w = d :: ds ∧ d < '0'

/-- A non-numeric token sorting above every digit run: starting with a
character above `9`. -/
def aboveTok (w : Str) : Prop :=
  ∃ d ds, w = d :: ds ∧ '9' < d

/-! ### Section joiner -/

/-- The `separator` option of `MergeOptions` (converter.ts line 282). -/
inductive SeparatorKind where
  | pagebreak
  | hr
  | none
deriving DecidableEq

/-- The separator fragment chosen at converter.ts lines 604-611 /
649-656: a page-break `div` for `pagebreak`, a horizontal rule for
`hr`, and the empty string otherwise. -/
def separatorMarkdown : SeparatorKind → Str
  | .pagebreak => "\n\n<div style=\"page-break-after: always;\"></div>\n\n".toList
  | .hr => "\n\n---\n\n".toList
  | .none => []

/-- Embedding of `contents.join(separatorMarkdown)` (converter.ts line 621/669). -/
def joinSections (sep : Str) (bodies : List Str) : Str :=
  List.intercalate sep bodies

/-- Number of positions at which `needle` occurs in `hay`. -/
def countOccur (needle hay : Str) : Nat :=
  ((List.range (hay.length + 1)).filter (fun i => needle.isPrefixOf (hay.drop i))).length

/-! ### Conversion orchestrator model -/

/-- The error taxonomy of the conversion entry points; the source
throws `Error` values with these messages, the spec names them as
these conditions. -/
inductive ConvError where
  | inputNotFound (p : String)
  | directoryNotFound (p : String)
  | notADirectory (p : String)
  | noEligibleFiles (p : String)
  | noInputFiles
  | renderEngineFailure
  | unexpectedOutputType
deriving DecidableEq

/-- A binary document payload. -/
abbrev Bytes := List UInt8

/-- What the external rendering engine may return: a `Buffer`, a
`Uint8Array`, or something unexpected. -/
inductive EngineOutput where
  | buffer (b : Bytes)
  | uint8array (b : Bytes)
  | other
deriving DecidableEq

/-- The filesystem as seen by the conversion entry points:
`path.resolve`, `fs.existsSync`, `statSync(..).isDirectory()`,
`readdirSync`, `readFileSync` and `path.dirname`. -/
structure FileSys where
  resolve : String → String
  pathExists : String → Bool
  isDirectory : String → Bool
  entries : String → List String
  read : String → Str
  dirname : String → String

/-- Embedding of `path.join(dir, file)`. -/
def joinPath (dir f : String) : String := dir ++ "/" ++ f

/-- A destination-filesystem mutation performed by an entry point. -/
inductive FsOp where
  | mkdirRec (p : String)
  | writeFile (p : String) (data : Bytes)
deriving DecidableEq

/-- Output normalization of `convert` (converter.ts lines 505-513):
accept `Buffer` or `Uint8Array`, otherwise fail. -/
def normalizeOutput : EngineOutput → Except ConvError Bytes
  | .buffer b => .ok b
  | .uint8array b => .ok b
  | .other => .error .unexpectedOutputType

/-- Embedding of `ConvertOptions` (converter.ts lines 274-276). -/
structure ConvertOptions where
  enableMermaid : Bool

/-- Embedding of `MergeOptions` (converter.ts lines 278-283). -/
structure MergeOptions extends ConvertOptions where
  sortFn : Option (String → String → Int)
  separator : Option SeparatorKind

/-- Embedding of `convert` (converter.ts lines 468-514): optional diagram
preprocessing, then the external engine, then output normalization.
An engine-internal failure surfaces as the engine's error. -/
def convert (render : Str → Option Str) (engine : Str → Except ConvError EngineOutput)
    (opts : ConvertOptions) (markdown : Str) : Except ConvError Bytes :=
  let processed := if opts.enableMermaid then preprocessMermaid render markdown else markdown
  match engine processed with
  | .error e => .error e
  | .ok out => normalizeOutput out

/-- The Writing step shared by the file-producing entry points
(converter.ts lines 531-536, 627-632, 675-680): create the destination
directory if absent, then write the buffer. -/
def writeOps (fs : FileSys) (outputPath : String) (buf : Bytes) : List FsOp :=
  (if fs.pathExists (fs.dirname outputPath) then [] else [.mkdirRec (fs.dirname outputPath)])
    ++ [.writeFile outputPath buf]

/-- Embedding of `convertFile` (converter.ts lines 516-537), as the destination
mutations performed plus the outcome. -/
def convertFile (fs : FileSys) (render : Str → Option Str)
    (engine : Str → Except ConvError EngineOutput) (opts : ConvertOptions)
    (inputPath outputPath : String) : List FsOp × Except ConvError Unit :=
  let aIn := fs.resolve inputPath
  let aOut := fs.resolve outputPath
  if fs.pathExists aIn = false then ([], .error (.inputNotFound aIn))
  else
    match convert render engine opts (fs.read aIn) with
    | .error e => ([], .error e)
    | .ok buf => (writeOps fs aOut buf, .ok ())

/-- The `.md` filter and default natural sort of `convertDirectory`
(converter.ts lines 596-598). -/
def eligibleFiles (fs : FileSys) (dir : String) (opts : MergeOptions) : List String :=
  sortFiles (opts.sortFn.getD naturalSortS)
    ((fs.entries dir).filter (fun f => f.endsWith ".md"))

/-- Embedding of `options.separator || "pagebreak"` and the corresponding
fragment. -/
def separatorOf (opts : MergeOptions) : Str :=
  separatorMarkdown (opts.separator.getD .pagebreak)

/-- Embedding of `convertDirectory` (converter.ts lines 578-633). -/
def convertDirectory (fs : FileSys) (render : Str → Option Str)
    (engine : Str → Except ConvError EngineOutput) (opts : MergeOptions)
    (inputDir outputPath : String) : List FsOp × Except ConvError Unit :=
  let aIn := fs.resolve inputDir
  let aOut := fs.resolve outputPath
  if fs.pathExists aIn = false then ([], .error (.directoryNotFound aIn))
  else if fs.isDirectory aIn = false then ([], .error (.notADirectory aIn))
  else
    let files := eligibleFiles fs aIn opts
    if files.isEmpty then ([], .error (.noEligibleFiles aIn))
    else
      let merged := joinSections (separatorOf opts)
        (files.map (fun f => fs.read (joinPath aIn f)))
      match convert render engine opts.toConvertOptions merged with
      | .error e => ([], .error e)
      | .ok buf => (writeOps fs aOut buf, .ok ())

/-- The read loop of `convertFiles` (converter.ts lines 659-667),
failing at the first missing input. -/
def readInputs (fs : FileSys) : List String → Except ConvError (List Str)
  | [] => .ok []
  | p :: ps =>
    if fs.pathExists (fs.resolve p) = false then .error (.inputNotFound (fs.resolve p))
    else
      match readInputs fs ps with
      | .error e => .error e
      | .ok rest => .ok (fs.read (fs.resolve p) :: rest)

/-- Embedding of `convertFiles` (converter.ts lines 638-681). -/
def convertFiles (fs : FileSys) (render : Str → Option Str)
    (engine : Str → Except ConvError EngineOutput) (opts : MergeOptions)
    (inputPaths : List String) (outputPath : String) : List FsOp × Except ConvError Unit :=
  let aOut := fs.resolve outputPath
  if inputPaths.isEmpty then ([], .error .noInputFiles)
  else
    match readInputs fs inputPaths with
    | .error e => ([], .error e)
    | .ok contents =>
      let merged := joinSections (separatorOf opts) contents
      match convert render engine opts.toConvertOptions merged with
      | .error e => ([], .error e)
      | .ok buf => (writeOps fs aOut buf, .ok ())

/-! ### Concrete orchestrator inputs used by witnesses -/

/-- A small filesystem: a plain file `f`, an empty directory `d`, and
a readable Markdown file `good.md`. -/
def fsDemo : FileSys :=
  { resolve := fun p => p
    pathExists := fun p => p == "f" || p == "d" || p == "good.md"
    isDirectory := fun p => p == "d"
    entries := fun _ => []
    read := fun _ => "# T".toList
    dirname := fun _ => "." }

/-- An engine that always returns a one-byte `Buffer`. -/
def engineBuf : Str → Except ConvError EngineOutput :=
  fun _ => .ok (.buffer [(7 : UInt8)])

/-- An engine that always fails internally. -/
def engineFail : Str → Except ConvError EngineOutput :=
  fun _ => .error .renderEngineFailure

/-- Merge options: no mermaid, default sort, default separator. -/
def optsPlain : MergeOptions :=
  { enableMermaid := false, sortFn := none, separator := none }

/-! ### Scanner lemmas -/

theorem findFromAux_eq_some {hay needle : Str} :
    ∀ {fuel start i : Nat}, findFromAux hay needle start fuel = some i →
      start ≤ i ∧ needle.isPrefixOf (hay.drop i) = true := by
  intro fuel
  induction fuel with
  | zero => intro start i h; simp [findFromAux] at h
  | succ n ih =>
    intro start i h
    rw [findFromAux] at h
    by_cases hp : needle.isPrefixOf (hay.drop start) = true
    · rw [if_pos hp] at h
      cases h
      exact ⟨Nat.le_refl _, hp⟩
    · rw [if_neg hp] at h
      obtain ⟨h1, h2⟩ := ih h
      exact ⟨by omega, h2⟩

theorem findFrom_some {hay needle : Str} {start i : Nat}
    (h : findFrom hay needle start = some i) :
    start ≤ i ∧ needle.isPrefixOf (hay.drop i) = true :=
  findFromAux_eq_some h

theorem isPrefixOf_drop_bound {hay needle : Str} {i : Nat}
    (h : needle.isPrefixOf (hay.drop i) = true) (hne : needle ≠ []) :
    i + needle.length ≤ hay.length := by
  have hp := List.isPrefixOf_iff_prefix.mp h
  have hlen := hp.length_le
  rw [List.length_drop] at hlen
  have hpos : 1 ≤ needle.length := by
    cases needle with
    | nil => exact absurd rfl hne
    | cons a l => simp
  omega

theorem openFence_length : openFence.length = 11 := by decide

theorem closeFence_length : closeFence.length = 3 := by decide

theorem extractAux_bounds (md : Str) :
    ∀ (fuel pos : Nat) (b : MermaidBlock), b ∈ extractAux md pos fuel →
      pos ≤ b.startIndex ∧ b.startIndex + 14 ≤ b.endIndex ∧ b.endIndex ≤ md.length := by
  intro fuel
  induction fuel with
  | zero => intro pos b h; simp [extractAux] at h
  | succ n ih =>
    intro pos b h
    cases hop : findFrom md openFence pos with
    | none => simp [extractAux, hop] at h
    | some i =>
      cases hcl : findFrom md closeFence (i + openFence.length) with
      | none => simp [extractAux, hop, hcl] at h
      | some j =>
        simp only [extractAux, hop, hcl, List.mem_cons] at h
        obtain ⟨hi1, hi2⟩ := findFrom_some hop
        obtain ⟨hj1, hj2⟩ := findFrom_some hcl
        have hiB : i + openFence.length ≤ md.length :=
          isPrefixOf_drop_bound hi2 (by decide)
        have hjB : j + closeFence.length ≤ md.length :=
          isPrefixOf_drop_bound hj2 (by decide)
        rw [openFence_length] at hj1 hiB
        rw [closeFence_length] at hjB
        rcases h with hb | hb
        · subst hb
          refine ⟨hi1, ?_, ?_⟩ <;> simp [closeFence_length] <;> omega
        · obtain ⟨h1, h2, h3⟩ := ih _ b hb
          rw [closeFence_length] at h1
          exact ⟨by omega, h2, h3⟩

theorem extractAux_pairwise (md : Str) :
    ∀ (fuel pos : Nat),
      (extractAux md pos fuel).Pairwise (fun a b => a.endIndex ≤ b.startIndex) := by
  intro fuel
  induction fuel with
  | zero => intro pos; simp [extractAux]
  | succ n ih =>
    intro pos
    cases hop : findFrom md openFence pos with
    | none => simp [extractAux, hop]
    | some i =>
      cases hcl : findFrom md closeFence (i + openFence.length) with
      | none => simp [extractAux, hop, hcl]
      | some j =>
        simp only [extractAux, hop, hcl]
        refine List.Pairwise.cons ?_ (ih _)
        intro b hb
        exact (extractAux_bounds md _ _ b hb).1

theorem extractMermaidBlocks_bounds (md : Str) (b : MermaidBlock)
    (h : b ∈ extractMermaidBlocks md) :
    b.startIndex + 14 ≤ b.endIndex ∧ b.endIndex ≤ md.length :=
  ⟨(extractAux_bounds md _ 0 b h).2.1, (extractAux_bounds md _ 0 b h).2.2⟩

theorem extractMermaidBlocks_pairwise (md : Str) :
    (extractMermaidBlocks md).Pairwise (fun a b => a.endIndex ≤ b.startIndex) :=
  extractAux_pairwise md _ 0

theorem extractAux_fence (md : Str) :
    ∀ (fuel pos : Nat) (b : MermaidBlock), b ∈ extractAux md pos fuel →
      openFence.isPrefixOf (md.drop b.startIndex) = true ∧
      closeFence.isPrefixOf (md.drop (b.endIndex - 3)) = true := by
  intro fuel
  induction fuel with
  | zero => intro pos b h; simp [extractAux] at h
  | succ n ih =>
    intro pos b h
    cases hop : findFrom md openFence pos with
    | none => simp [extractAux, hop] at h
    | some i =>
      cases hcl : findFrom md closeFence (i + openFence.length) with
      | none => simp [extractAux, hop, hcl] at h
      | some j =>
        simp only [extractAux, hop, hcl, List.mem_cons] at h
        rcases h with hb | hb
        · subst hb
          refine ⟨(findFrom_some hop).2, ?_⟩
          have := (findFrom_some hcl).2
          simpa [closeFence_length] using this
        · exact ih _ b hb

/-! ### Rewriter lemmas -/

theorem rewriteBlocks_cons (render : Str → Option Str) (b : MermaidBlock)
    (rest : List MermaidBlock) (st : Str × Int) :
    rewriteBlocks render (b :: rest) st = rewriteBlocks render rest (rewriteStep render st b) := rfl

/-- Main characterization of the rewriting loop: started on a state
`pre ++ orig.drop p` whose offset is `pre.length - p`, with all blocks
lying in sorted order inside `orig.drop p`, it produces `pre ++
rewriteSpec …`, and the final offset is again the length drift. -/
theorem rewriteBlocks_spec (render : Str → Option Str) (orig : Str) :
    ∀ (blocks : List MermaidBlock) (p : Nat) (pre : Str),
      p ≤ orig.length →
      (∀ b ∈ blocks, p ≤ b.startIndex ∧ b.startIndex ≤ b.endIndex ∧ b.endIndex ≤ orig.length) →
      blocks.Pairwise (fun a b => a.endIndex ≤ b.startIndex) →
      rewriteBlocks render blocks (pre ++ orig.drop p, (pre.length : Int) - (p : Int))
        = (pre ++ rewriteSpec render orig blocks p,
           (pre.length : Int) + ((rewriteSpec render orig blocks p).length : Int)
             - (orig.length : Int)) := by
  intro blocks
  induction blocks with
  | nil =>
    intro p pre hp _ _
    simp only [rewriteBlocks, List.foldl_nil, rewriteSpec, Prod.mk.injEq, List.length_drop]
    exact ⟨trivial, by omega⟩
  | cons b rest ih =>
    intro p pre hp hb hpw
    obtain ⟨hps, hse, hel⟩ := hb b (List.mem_cons_self _ _)
    have hrest : ∀ b' ∈ rest,
        p ≤ b'.startIndex ∧ b'.startIndex ≤ b'.endIndex ∧ b'.endIndex ≤ orig.length :=
      fun b' hb' => hb b' (List.mem_cons_of_mem _ hb')
    rw [List.pairwise_cons] at hpw
    obtain ⟨hhead, htail⟩ := hpw
    rw [rewriteBlocks_cons]
    cases hr : render b.code with
    | none =>
      have hspec : rewriteSpec render orig (b :: rest) p = rewriteSpec render orig rest p := by
        simp [rewriteSpec, hr]
      rw [hspec]
      have hstep : rewriteStep render (pre ++ orig.drop p, (pre.length : Int) - (p : Int)) b
          = (pre ++ orig.drop p, (pre.length : Int) - (p : Int)) := by
        simp [rewriteStep, hr]
      rw [hstep]
      exact ih p pre hp hrest htail
    | some b64 =>
      have hAS : ((b.startIndex : Int) + ((pre.length : Int) - (p : Int))).toNat
          = pre.length + (b.startIndex - p) := by omega
      have hAE : ((b.endIndex : Int) + ((pre.length : Int) - (p : Int))).toNat
          = pre.length + (b.endIndex - p) := by omega
      have h1 : (pre ++ orig.drop p).take (pre.length + (b.startIndex - p))
          = pre ++ (orig.take b.startIndex).drop p := by
        rw [List.take_append, List.take_drop]
        have hq : p + (b.startIndex - p) = b.startIndex := by omega
        rw [hq]
      have h2 : (pre ++ orig.drop p).drop (pre.length + (b.endIndex - p))
          = orig.drop b.endIndex := by
        rw [List.drop_append, List.drop_drop]
        have hq : p + (b.endIndex - p) = b.endIndex := by omega
        rw [hq]
      have hstep : rewriteStep render (pre ++ orig.drop p, (pre.length : Int) - (p : Int)) b
          = ((pre ++ (orig.take b.startIndex).drop p ++ imgMarkdown b64) ++ orig.drop b.endIndex,
             ((pre ++ (orig.take b.startIndex).drop p ++ imgMarkdown b64).length : Int)
               - (b.endIndex : Int)) := by
        simp only [rewriteStep, hr, hAS, hAE, h1, h2, Prod.mk.injEq]
        constructor
        · simp [List.append_assoc]
        · have hseg : ((orig.take b.startIndex).drop p).length = b.startIndex - p := by
            simp [List.length_drop, List.length_take]
            omega
          simp only [List.length_append, hseg]
          push_cast
          omega
      rw [hstep]
      have hres := ih b.endIndex (pre ++ (orig.take b.startIndex).drop p ++ imgMarkdown b64)
        hel (fun b' hb' => ⟨hhead b' hb', (hrest b' hb').2.1, (hrest b' hb').2.2⟩) htail
      rw [hres]
      have hspec : rewriteSpec render orig (b :: rest) p
          = (orig.take b.startIndex).drop p ++ imgMarkdown b64
              ++ rewriteSpec render orig rest b.endIndex := by
        simp [rewriteSpec, hr]
      rw [hspec]
      simp only [Prod.mk.injEq]
      constructor
      · simp [List.append_assoc]
      · simp only [List.length_append]
        push_cast
        omega

/-- The rewriting pass equals its structural description. -/
theorem preprocessMermaid_eq_spec (render : Str → Option Str) (md : Str) :
    preprocessMermaid render md = rewriteSpec render md (extractMermaidBlocks md) 0 := by
  simp only [preprocessMermaid]
  by_cases hE : (extractMermaidBlocks md).isEmpty
  · rw [if_pos hE]
    rw [List.isEmpty_iff] at hE
    rw [hE, rewriteSpec, List.drop_zero]
  · rw [if_neg hE]
    have h := rewriteBlocks_spec render md (extractMermaidBlocks md) 0 []
      (Nat.zero_le _)
      (fun b hb => ⟨Nat.zero_le _,
        by have := (extractMermaidBlocks_bounds md b hb).1; omega,
        (extractMermaidBlocks_bounds md b hb).2⟩)
      (extractMermaidBlocks_pairwise md)
    simp only [List.nil_append, List.drop_zero, List.length_nil, Nat.cast_zero, sub_zero] at h
    rw [h]

/-- The running offset is exactly the cumulative length drift of the
blocks processed so far (independent of any position bookkeeping). -/
theorem rewriteBlocks_offset (render : Str → Option Str) :
    ∀ (blocks : List MermaidBlock) (st : Str × Int),
      (rewriteBlocks render blocks st).2 = st.2 + cumDrift render blocks := by
  intro blocks
  induction blocks with
  | nil => intro st; simp [rewriteBlocks, cumDrift]
  | cons b rest ih =>
    intro st
    rw [rewriteBlocks_cons, ih, cumDrift]
    cases hr : render b.code with
    | none => simp [rewriteStep, hr]
    | some b64 =>
      simp only [rewriteStep, hr]
      ring

/-- The partially rewritten text decomposes as a mutated prefix
followed by an untouched suffix of the original, with the prefix/cut
difference equal to the length drift; the cut stays at or before any
bound `B` dominating the processed blocks. -/
theorem rewriteSpec_decomp (render : Str → Option Str) (orig : Str) :
    ∀ (blocks : List MermaidBlock) (p B : Nat),
      p ≤ orig.length → p ≤ B →
      (∀ b ∈ blocks, p ≤ b.startIndex ∧ b.startIndex ≤ b.endIndex ∧
        b.endIndex ≤ orig.length ∧ b.endIndex ≤ B) →
      blocks.Pairwise (fun a b => a.endIndex ≤ b.startIndex) →
      ∃ (pre : Str) (q : Nat), q ≤ B ∧ q ≤ orig.length ∧
        rewriteSpec render orig blocks p = pre ++ orig.drop q ∧
        (pre.length : Int) - (q : Int)
          = ((rewriteSpec render orig blocks p).length : Int) - (orig.length : Int) := by
  intro blocks
  induction blocks with
  | nil =>
    intro p B hp hpB _ _
    refine ⟨[], p, hpB, hp, by simp [rewriteSpec], ?_⟩
    simp only [rewriteSpec, List.length_nil, List.length_drop, Nat.cast_zero]
    omega
  | cons b rest ih =>
    intro p B hp hpB hb hpw
    obtain ⟨hps, hse, hel, heB⟩ := hb b (List.mem_cons_self _ _)
    rw [List.pairwise_cons] at hpw
    obtain ⟨hhead, htail⟩ := hpw
    cases hr : render b.code with
    | none =>
      have hspec : rewriteSpec render orig (b :: rest) p = rewriteSpec render orig rest p := by
        simp [rewriteSpec, hr]
      rw [hspec]
      exact ih p B hp hpB (fun b' hb' => hb b' (List.mem_cons_of_mem _ hb')) htail
    | some b64 =>
      have hspec : rewriteSpec render orig (b :: rest) p
          = (orig.take b.startIndex).drop p ++ imgMarkdown b64
              ++ rewriteSpec render orig rest b.endIndex := by
        simp [rewriteSpec, hr]
      obtain ⟨pre', q, hqB, hqL, hEq, hLen⟩ := ih b.endIndex B hel heB
        (fun b' hb' => ⟨hhead b' hb', (hb b' (List.mem_cons_of_mem _ hb')).2.1,
          (hb b' (List.mem_cons_of_mem _ hb')).2.2.1,
          (hb b' (List.mem_cons_of_mem _ hb')).2.2.2⟩) htail
      refine ⟨(orig.take b.startIndex).drop p ++ imgMarkdown b64 ++ pre', q, hqB, hqL, ?_, ?_⟩
      · rw [hspec, hEq]
        simp [List.append_assoc]
      · rw [hspec]
        simp only [List.length_append]
        push_cast
        omega

/-! ### Claim C1 -/

/-- C1: `preprocessMermaid` processes the scanned blocks in ascending
start-offset order with a running offset equal to the cumulative
difference between replacement and replaced-span lengths; after
processing any prefix of the block list, every remaining block `b`
still has exactly its original fenced text
`md[b.startIndex .. b.endIndex)` sitting at
`[b.startIndex + offset, b.endIndex + offset)` in the mutated string,
so earlier replacements never invalidate later blocks' stored
offsets. -/
theorem preprocessMermaid_offset_invariant (render : Str → Option Str) (md : Str) (i : Nat)
    (b : MermaidBlock) (hb : b ∈ (extractMermaidBlocks md).drop i) :
    ((rewriteBlocks render ((extractMermaidBlocks md).take i) (md, 0)).1.take
        ((b.endIndex : Int)
          + (rewriteBlocks render ((extractMermaidBlocks md).take i) (md, 0)).2).toNat).drop
      ((b.startIndex : Int)
        + (rewriteBlocks render ((extractMermaidBlocks md).take i) (md, 0)).2).toNat
      = (md.take b.endIndex).drop b.startIndex
    ∧ (rewriteBlocks render ((extractMermaidBlocks md).take i) (md, 0)).2
        = cumDrift render ((extractMermaidBlocks md).take i) := by
  have hbfull : b ∈ extractMermaidBlocks md := List.mem_of_mem_drop hb
  obtain ⟨hb14, hbL⟩ := extractMermaidBlocks_bounds md b hbfull
  have hpwfull := extractMermaidBlocks_pairwise md
  rw [← List.take_append_drop i (extractMermaidBlocks md), List.pairwise_append] at hpwfull
  obtain ⟨hpw1, _, hcross⟩ := hpwfull
  have hbnds : ∀ a ∈ (extractMermaidBlocks md).take i,
      (0:Nat) ≤ a.startIndex ∧ a.startIndex ≤ a.endIndex ∧ a.endIndex ≤ md.length := by
    intro a ha
    have := extractMermaidBlocks_bounds md a (List.mem_of_mem_take ha)
    exact ⟨Nat.zero_le _, by omega, this.2⟩
  have hmain := rewriteBlocks_spec render md ((extractMermaidBlocks md).take i) 0 []
    (Nat.zero_le _) hbnds hpw1
  simp only [List.nil_append, List.drop_zero, List.length_nil, Nat.cast_zero, sub_zero] at hmain
  obtain ⟨pre, q, hqB, hqL, hEq, hLen⟩ := rewriteSpec_decomp render md
    ((extractMermaidBlocks md).take i) 0 b.startIndex (Nat.zero_le _) (Nat.zero_le _)
    (fun a ha => ⟨Nat.zero_le _, (hbnds a ha).2.1, (hbnds a ha).2.2, hcross a ha b hb⟩)
    hpw1
  have hfst : (rewriteBlocks render ((extractMermaidBlocks md).take i) (md, 0)).1
      = pre ++ md.drop q := by
    rw [hmain]
    exact hEq
  have hoff : (rewriteBlocks render ((extractMermaidBlocks md).take i) (md, 0)).2
      = (pre.length : Int) - (q : Int) := by
    rw [hmain]
    show (0 : Int) + ((rewriteSpec render md ((extractMermaidBlocks md).take i) 0).length : Int)
        - (md.length : Int) = (pre.length : Int) - (q : Int)
    omega
  constructor
  · rw [hfst, hoff]
    have hS : ((b.startIndex : Int) + ((pre.length : Int) - (q : Int))).toNat
        = pre.length + (b.startIndex - q) := by omega
    have hE : ((b.endIndex : Int) + ((pre.length : Int) - (q : Int))).toNat
        = pre.length + (b.endIndex - q) := by omega
    rw [hS, hE, List.take_append, List.take_drop]
    have hq1 : q + (b.endIndex - q) = b.endIndex := by omega
    rw [hq1, List.drop_append, List.drop_drop]
    have hq2 : q + (b.startIndex - q) = b.startIndex := by omega
    rw [hq2]
  · have hdrift := rewriteBlocks_offset render ((extractMermaidBlocks md).take i) (md, 0)
    rw [hdrift]
    show (0 : Int) + cumDrift render ((extractMermaidBlocks md).take i) = _
    ring

/-- Witness for C1: the invariant instantiated after processing the
first block of a concrete two-diagram document. -/
theorem preprocessMermaid_offset_invariant_witness :
    blockTwo ∈ (extractMermaidBlocks mdTwo).drop 1 ∧
    (((rewriteBlocks renderOk ((extractMermaidBlocks mdTwo).take 1) (mdTwo, 0)).1.take
        ((blockTwo.endIndex : Int)
          + (rewriteBlocks renderOk ((extractMermaidBlocks mdTwo).take 1) (mdTwo, 0)).2).toNat).drop
      ((blockTwo.startIndex : Int)
        + (rewriteBlocks renderOk ((extractMermaidBlocks mdTwo).take 1) (mdTwo, 0)).2).toNat
      = (mdTwo.take blockTwo.endIndex).drop blockTwo.startIndex
    ∧ (rewriteBlocks renderOk ((extractMermaidBlocks mdTwo).take 1) (mdTwo, 0)).2
        = cumDrift renderOk ((extractMermaidBlocks mdTwo).take 1)) :=
  ⟨by decide, preprocessMermaid_offset_invariant renderOk mdTwo 1 blockTwo (by decide)⟩

/-! ### Claim C2 -/

theorem slice_glue (orig : Str) (p s B : Nat) (hps : p ≤ s) (hsB : s ≤ B)
    (hB : B ≤ orig.length) :
    (orig.take s).drop p ++ (orig.take B).drop s = (orig.take B).drop p := by
  have h1 : (orig.take B).take s = orig.take s := by
    rw [List.take_take]
    congr 1
    omega
  conv_rhs => rw [← List.take_append_drop s (orig.take B)]
  rw [List.drop_append_eq_append_drop, h1]
  have h2 : p - (orig.take s).length = 0 := by
    simp only [List.length_take]
    omega
  rw [h2, List.drop_zero]

/-- A slice `[s, e)` of the original text is an infix of the untouched
region `[p, B)` whenever it lies inside it. -/
theorem slice_infix (orig : Str) (p s e B : Nat) (hps : p ≤ s) (hse : s ≤ e)
    (heB : e ≤ B) (hBl : B ≤ orig.length) :
    (orig.take e).drop s <:+: (orig.take B).drop p := by
  refine ⟨(orig.take s).drop p, (orig.take B).drop e, ?_⟩
  rw [slice_glue orig p s e hps hse (Nat.le_trans heB hBl)]
  exact slice_glue orig p e B (Nat.le_trans hps hse) heB hBl

/-- A slice lying before every block of the list survives rewriting as
an infix of the result. -/
theorem rewriteSpec_infix_of_after (render : Str → Option Str) (orig : Str) :
    ∀ (blocks : List MermaidBlock) (p s e : Nat),
      p ≤ s → s ≤ e → e ≤ orig.length →
      (∀ a ∈ blocks, e ≤ a.startIndex ∧ a.startIndex ≤ a.endIndex ∧ a.endIndex ≤ orig.length) →
      blocks.Pairwise (fun a b => a.endIndex ≤ b.startIndex) →
      (orig.take e).drop s <:+: rewriteSpec render orig blocks p := by
  intro blocks
  induction blocks with
  | nil =>
    intro p s e hps hse hel _ _
    rw [rewriteSpec]
    have := slice_infix orig p s e orig.length hps hse hel (Nat.le_refl _)
    rwa [List.take_length] at this
  | cons a rest ih =>
    intro p s e hps hse hel hb hpw
    obtain ⟨hea, hase, hael⟩ := hb a (List.mem_cons_self _ _)
    rw [List.pairwise_cons] at hpw
    obtain ⟨hhead, htail⟩ := hpw
    cases hr : render a.code with
    | none =>
      have hspec : rewriteSpec render orig (a :: rest) p = rewriteSpec render orig rest p := by
        simp [rewriteSpec, hr]
      rw [hspec]
      refine ih p s e hps hse hel ?_ htail
      intro a' ha'
      obtain ⟨h1, h2, h3⟩ := hb a' (List.mem_cons_of_mem _ ha')
      exact ⟨h1, h2, h3⟩
    | some b64 =>
      have hspec : rewriteSpec render orig (a :: rest) p
          = (orig.take a.startIndex).drop p ++ (imgMarkdown b64
              ++ rewriteSpec render orig rest a.endIndex) := by
        simp [rewriteSpec, hr, List.append_assoc]
      rw [hspec]
      have hin : (orig.take e).drop s <:+: (orig.take a.startIndex).drop p :=
        slice_infix orig p s e a.startIndex hps hse hea (Nat.le_trans hase hael)
      exact hin.trans ⟨[], _, rfl⟩

/-- Every block whose render fails keeps its full original fenced text
as an infix of the rewritten document. -/
theorem rewriteSpec_keeps_failed (render : Str → Option Str) (orig : Str) :
    ∀ (blocks : List MermaidBlock) (p : Nat),
      p ≤ orig.length →
      (∀ a ∈ blocks, p ≤ a.startIndex ∧ a.startIndex ≤ a.endIndex ∧ a.endIndex ≤ orig.length) →
      blocks.Pairwise (fun a b => a.endIndex ≤ b.startIndex) →
      ∀ b ∈ blocks, render b.code = none →
        (orig.take b.endIndex).drop b.startIndex <:+: rewriteSpec render orig blocks p := by
  intro blocks
  induction blocks with
  | nil => intro p _ _ _ b hb; simp at hb
  | cons a rest ih =>
    intro p hp hb hpw b hbmem hbfail
    obtain ⟨hpa, hase, hael⟩ := hb a (List.mem_cons_self _ _)
    rw [List.pairwise_cons] at hpw
    obtain ⟨hhead, htail⟩ := hpw
    have hrest : ∀ a' ∈ rest,
        p ≤ a'.startIndex ∧ a'.startIndex ≤ a'.endIndex ∧ a'.endIndex ≤ orig.length :=
      fun a' ha' => hb a' (List.mem_cons_of_mem _ ha')
    rcases List.mem_cons.mp hbmem with hba | hbrest
    · subst hba
      rw [show rewriteSpec render orig (b :: rest) p = rewriteSpec render orig rest p from by
        simp [rewriteSpec, hbfail]]
      refine rewriteSpec_infix_of_after render orig rest p b.startIndex b.endIndex hpa hase hael
        ?_ htail
      intro a' ha'
      exact ⟨hhead a' ha', (hrest a' ha').2.1, (hrest a' ha').2.2⟩
    · cases hr : render a.code with
      | none =>
        rw [show rewriteSpec render orig (a :: rest) p = rewriteSpec render orig rest p from by
          simp [rewriteSpec, hr]]
        exact ih p hp hrest htail b hbrest hbfail
      | some b64 =>
        rw [show rewriteSpec render orig (a :: rest) p
            = ((orig.take a.startIndex).drop p ++ imgMarkdown b64)
              ++ rewriteSpec render orig rest a.endIndex from by
          simp [rewriteSpec, hr, List.append_assoc]]
        have hS := ih a.endIndex hael
          (fun a' ha' => ⟨hhead a' ha', (hrest a' ha').2.1, (hrest a' ha').2.2⟩)
          htail b hbrest hbfail
        obtain ⟨u, v, huv⟩ := hS
        refine ⟨((orig.take a.startIndex).drop p ++ imgMarkdown b64) ++ u, v, ?_⟩
        rw [← huv]
        simp [List.append_assoc]

theorem imgHead_split :
    imgHead = "\n\n".toList ++ "![Mermaid Diagram](data:image/png;base64,".toList := by decide

theorem imgTail_split : imgTail = ")".toList ++ "\n\n".toList := by decide

/-- C2: rewriting never raises (the loop is total); a block whose
render fails keeps its original fenced text intact in the output while
the remaining blocks are still processed, and a block whose render
succeeds has its whole span `[startIndex, endIndex)` replaced by the
inline base64 image reference, which is delimited by blank lines —
witnessed by the equality of `preprocessMermaid` with the structural
description `rewriteSpec` (original slice for failed blocks, image
reference for successful ones), the failed block's fenced text
surviving as an infix, and the blank-line delimiters of the
replacement. -/
theorem preprocessMermaid_failure_isolation (render : Str → Option Str) (md : Str) :
    preprocessMermaid render md = rewriteSpec render md (extractMermaidBlocks md) 0
    ∧ (∀ b ∈ extractMermaidBlocks md, render b.code = none →
        (md.take b.endIndex).drop b.startIndex <:+: preprocessMermaid render md)
    ∧ (∀ b64 : Str, "\n\n".toList <+: imgMarkdown b64 ∧ "\n\n".toList <:+ imgMarkdown b64) := by
  refine ⟨preprocessMermaid_eq_spec render md, ?_, ?_⟩
  · intro b hb hfail
    rw [preprocessMermaid_eq_spec render md]
    exact rewriteSpec_keeps_failed render md (extractMermaidBlocks md) 0 (Nat.zero_le _)
      (fun a ha => ⟨Nat.zero_le _,
        by have := (extractMermaidBlocks_bounds md a ha).1; omega,
        (extractMermaidBlocks_bounds md a ha).2⟩)
      (extractMermaidBlocks_pairwise md) b hb hfail
  · intro b64
    constructor
    · refine ⟨"![Mermaid Diagram](data:image/png;base64,".toList ++ b64 ++ imgTail, ?_⟩
      rw [imgMarkdown, imgHead_split]
      simp [List.append_assoc]
    · refine ⟨imgHead ++ b64 ++ ")".toList, ?_⟩
      rw [imgMarkdown, imgTail_split]
      simp [List.append_assoc]

/-- Witness for C2 on a concrete document whose second diagram fails
to render: the characterization holds and the failed block's fenced
text survives in the output. -/
theorem preprocessMermaid_failure_isolation_witness :
    (extractMermaidBlocks mdTwo).length = 2
    ∧ blockTwo ∈ extractMermaidBlocks mdTwo
    ∧ renderFailY blockTwo.code = none
    ∧ preprocessMermaid renderFailY mdTwo
        = rewriteSpec renderFailY mdTwo (extractMermaidBlocks mdTwo) 0
    ∧ (mdTwo.take blockTwo.endIndex).drop blockTwo.startIndex
        <:+: preprocessMermaid renderFailY mdTwo :=
  ⟨by decide, by decide, by decide,
   (preprocessMermaid_failure_isolation renderFailY mdTwo).1,
   (preprocessMermaid_failure_isolation renderFailY mdTwo).2.1 blockTwo (by decide) (by decide)⟩

/-! ### Claim C3 -/

/-- C3: the render cache is content-addressed — blocks with identical
(trimmed) source text get the same hash key and image path no matter
which document or position they come from — and repeated resolution is
cached: if a first `renderMermaidToPng` call for some source text
returns a path, a second call with the same text returns immediately
with the same path and an unchanged state (in particular no further
renderer invocation), the whole pair of calls having invoked the
renderer at most once. -/
theorem renderMermaidToPng_content_addressed (R : RendererModel) :
    (∀ (md1 md2 : Str) (b1 b2 : MermaidBlock),
      b1 ∈ extractMermaidBlocks md1 → b2 ∈ extractMermaidBlocks md2 →
      b1.code = b2.code → pngPath R b1.code = pngPath R b2.code)
    ∧ ∀ (code : Str) (st : CacheState) (p : Str),
        (renderMermaidToPng R code st).1 = some p →
        renderMermaidToPng R code (renderMermaidToPng R code st).2
            = (some p, (renderMermaidToPng R code st).2)
        ∧ (renderMermaidToPng R code st).2.renders ≤ st.renders + 1 := by
  constructor
  · intro md1 md2 b1 b2 _ _ hcode
    rw [hcode]
  · intro code st p hfst
    by_cases hhit : pngPath R code ∈ st.files
    · have hcall : renderMermaidToPng R code st = (some (pngPath R code), st) := by
        rw [renderMermaidToPng, if_pos hhit]
      rw [hcall] at hfst
      cases hfst
      rw [hcall]
      exact ⟨hcall, Nat.le_succ _⟩
    · have hcall : renderMermaidToPng R code st
          = if (R.exitOk code && R.createsOutput code) = true
            then (some (pngPath R code),
              ⟨(if R.createsOutput code then [pngPath R code] else []) ++
                mmdPath R code :: st.files, st.renders + 1⟩)
            else (none,
              ⟨(if R.createsOutput code then [pngPath R code] else []) ++
                mmdPath R code :: st.files, st.renders + 1⟩) := by
        rw [renderMermaidToPng, if_neg hhit]
      by_cases hok : (R.exitOk code && R.createsOutput code) = true
      · rw [if_pos hok] at hcall
        rw [hcall] at hfst
        cases hfst
        rw [hcall]
        have hmem : pngPath R code ∈
            (if R.createsOutput code then [pngPath R code] else []) ++
              mmdPath R code :: st.files := by
          rcases Bool.and_eq_true_iff.mp hok with ⟨_, hco⟩
          rw [hco]
          simp
        constructor
        · rw [renderMermaidToPng, if_pos hmem]
        · exact Nat.le_refl _
      · rw [if_neg hok] at hcall
        rw [hcall] at hfst
        simp at hfst

/-- Witness for C3: two equal-source blocks in different documents
share their image path, and resolving the same source twice from the
empty cache returns the same path without a second invocation. -/
theorem renderMermaidToPng_content_addressed_witness :
    (blockTwo ∈ extractMermaidBlocks mdTwo
      ∧ blockSolo ∈ extractMermaidBlocks "```mermaid\nY\n```".toList
      ∧ pngPath rendererAlwaysOk blockTwo.code = pngPath rendererAlwaysOk blockSolo.code)
    ∧ ((renderMermaidToPng rendererAlwaysOk ("graph TD".toList) emptyCache).1
        = some (pngPath rendererAlwaysOk ("graph TD".toList))
      ∧ renderMermaidToPng rendererAlwaysOk ("graph TD".toList)
            (renderMermaidToPng rendererAlwaysOk ("graph TD".toList) emptyCache).2
          = (some (pngPath rendererAlwaysOk ("graph TD".toList)),
             (renderMermaidToPng rendererAlwaysOk ("graph TD".toList) emptyCache).2)
      ∧ (renderMermaidToPng rendererAlwaysOk ("graph TD".toList) emptyCache).2.renders
          ≤ emptyCache.renders + 1) := by
  have h2 := (renderMermaidToPng_content_addressed rendererAlwaysOk).2
    ("graph TD".toList) emptyCache (pngPath rendererAlwaysOk ("graph TD".toList)) (by decide)
  exact ⟨⟨by decide, by decide,
    (renderMermaidToPng_content_addressed rendererAlwaysOk).1 mdTwo
      ("```mermaid\nY\n```".toList) blockTwo blockSolo (by decide) (by decide) (by decide)⟩,
    by decide, h2.1, h2.2⟩

/-! ### Claim C9 -/

/-- C9: the scanner only recognizes a block where the literal text
`\x60\x60\x60mermaid` is immediately followed by a newline (every reported
block's start offset carries that exact opening fence; an opening
fence with a trailing space is not matched at all), and the body ends
at the first later occurrence of three backticks anywhere — so a
diagram source containing three consecutive backticks mid-line is
truncated there. -/
theorem extractMermaidBlocks_fence_shape :
    (∀ (md : Str) (b : MermaidBlock), b ∈ extractMermaidBlocks md →
      openFence.isPrefixOf (md.drop b.startIndex) = true)
    ∧ extractMermaidBlocks "```mermaid \nA\n```".toList = []
    ∧ extractMermaidBlocks "```mermaid\nA ``` B\n```".toList
        = [{ code := "A".toList, startIndex := 0, endIndex := 16 }] := by
  refine ⟨?_, by decide, by decide⟩
  intro md b hb
  exact (extractAux_fence md _ 0 b hb).1

/-- Witness for C9's general conjunct: the second block of `mdTwo`
indeed starts with the exact opening fence. -/
theorem extractMermaidBlocks_fence_shape_witness :
    blockTwo ∈ extractMermaidBlocks mdTwo
    ∧ openFence.isPrefixOf (mdTwo.drop blockTwo.startIndex) = true :=
  ⟨by decide, extractMermaidBlocks_fence_shape.1 mdTwo blockTwo (by decide)⟩

/-! ### Claims C4 and C10 -/

unseal List.merge List.mergeSort in
/-- C4: the natural-sort comparator tokenizes names into alternating
digit/non-digit runs, compares token pairs positionally — numerically
when both are numeric (so `2 < 10`), as plain strings otherwise — with
the first non-equal pair deciding; a name that runs out of tokens
while equal so far sorts first; and ordering
`["f10.md","f2.md","f1.md"]` yields `["f1.md","f2.md","f10.md"]`. -/
theorem naturalSort_spec :
    sortFiles naturalSortS ["f10.md", "f2.md", "f1.md"] = ["f1.md", "f2.md", "f10.md"]
    ∧ tokenize "f10.md".toList = ["f".toList, "10".toList, ".md".toList]
    ∧ naturalSortS "2" "10" < 0
    ∧ naturalSortS "f2.md" "f10.md" < 0
    ∧ naturalSortS "abc" "abd" < 0
    ∧ naturalSortS "f1" "f1x" < 0 := by
  refine ⟨by decide, by decide, by decide, by decide, by decide, by decide⟩

unseal List.merge List.mergeSort in
/-- C10: distinct names whose numeric tokens are equal as integers
while differing as strings compare equal — no lexical tie-break is
applied — so zero-padding differences are invisible and such names
keep their enumeration order under the (stable) sort. -/
theorem naturalSort_zero_padding_ties :
    naturalSortS "01-intro.md" "1-intro.md" = 0
    ∧ "01-intro.md" ≠ "1-intro.md"
    ∧ sortFiles naturalSortS ["01-intro.md", "1-intro.md"] = ["01-intro.md", "1-intro.md"]
    ∧ sortFiles naturalSortS ["1-intro.md", "01-intro.md"] = ["1-intro.md", "01-intro.md"] := by
  refine ⟨by decide, by decide, by decide, by decide⟩

/-! ### Claim C5 -/

/-- C5: the section joiner inserts the fragment selected by the
separator kind (page-break `div`, horizontal rule, or empty string)
strictly between consecutive bodies — generally
`join [a,b,c] = a ++ sep ++ b ++ sep ++ c` — and joining
`["A","B","C"]` with the rule separator yields exactly two separator
occurrences, none leading or trailing. -/
theorem joinSections_between_only :
    (∀ (sep a b c : Str), joinSections sep [a, b, c] = a ++ sep ++ b ++ sep ++ c)
    ∧ separatorMarkdown .pagebreak
        = "\n\n<div style=\"page-break-after: always;\"></div>\n\n".toList
    ∧ separatorMarkdown .hr = "\n\n---\n\n".toList
    ∧ separatorMarkdown .none = []
    ∧ joinSections (separatorMarkdown .hr) ["A".toList, "B".toList, "C".toList]
        = "A".toList ++ separatorMarkdown .hr ++ "B".toList
            ++ separatorMarkdown .hr ++ "C".toList
    ∧ countOccur (separatorMarkdown .hr)
        (joinSections (separatorMarkdown .hr) ["A".toList, "B".toList, "C".toList]) = 2
    ∧ ¬ separatorMarkdown .hr <+:
        joinSections (separatorMarkdown .hr) ["A".toList, "B".toList, "C".toList]
    ∧ ¬ separatorMarkdown .hr <:+
        joinSections (separatorMarkdown .hr) ["A".toList, "B".toList, "C".toList] := by
  refine ⟨?_, by decide, by decide, by decide, by decide, by decide, by decide, by decide⟩
  intro sep a b c
  simp [joinSections, List.intercalate]

/-! ### Claim C6 -/

theorem readInputs_missing (fs : FileSys) :
    ∀ (ps1 : List String) (p : String) (ps2 : List String),
      (∀ q ∈ ps1, fs.pathExists (fs.resolve q) = true) →
      fs.pathExists (fs.resolve p) = false →
      readInputs fs (ps1 ++ p :: ps2) = .error (.inputNotFound (fs.resolve p)) := by
  intro ps1
  induction ps1 with
  | nil => intro p ps2 _ hmiss; simp [readInputs, hmiss]
  | cons q qs ih =>
    intro p ps2 hall hmiss
    have hq : fs.pathExists (fs.resolve q) = true := hall q (List.mem_cons_self _ _)
    have hrec := ih p ps2 (fun r hr => hall r (List.mem_cons_of_mem _ hr)) hmiss
    simp [readInputs, hq, hrec]

/-- C6: `convertDirectory` fails with `DirectoryNotFound` when the
input path does not exist, `NotADirectory` when it exists but is not a
directory, and `NoEligibleFiles` when it is a directory with no `.md`
entries; `convertFiles` fails with the no-input-files condition on an
empty list and with `InputNotFound` naming the (resolved) offending
path when a listed input is missing; in every case the failure comes
with an empty mutation trace — no output is produced. -/
theorem convert_precondition_failures (fs : FileSys) (render : Str → Option Str)
    (engine : Str → Except ConvError EngineOutput) (opts : MergeOptions) :
    (∀ inputDir outputPath : String,
      fs.pathExists (fs.resolve inputDir) = false →
      convertDirectory fs render engine opts inputDir outputPath
        = ([], .error (.directoryNotFound (fs.resolve inputDir))))
    ∧ (∀ inputDir outputPath : String,
      fs.pathExists (fs.resolve inputDir) = true →
      fs.isDirectory (fs.resolve inputDir) = false →
      convertDirectory fs render engine opts inputDir outputPath
        = ([], .error (.notADirectory (fs.resolve inputDir))))
    ∧ (∀ inputDir outputPath : String,
      fs.pathExists (fs.resolve inputDir) = true →
      fs.isDirectory (fs.resolve inputDir) = true →
      eligibleFiles fs (fs.resolve inputDir) opts = [] →
      convertDirectory fs render engine opts inputDir outputPath
        = ([], .error (.noEligibleFiles (fs.resolve inputDir))))
    ∧ (∀ outputPath : String,
      convertFiles fs render engine opts [] outputPath = ([], .error .noInputFiles))
    ∧ (∀ (ps1 : List String) (p : String) (ps2 : List String) (outputPath : String),
      (∀ q ∈ ps1, fs.pathExists (fs.resolve q) = true) →
      fs.pathExists (fs.resolve p) = false →
      convertFiles fs render engine opts (ps1 ++ p :: ps2) outputPath
        = ([], .error (.inputNotFound (fs.resolve p)))) := by
  refine ⟨?_, ?_, ?_, ?_, ?_⟩
  · intro inputDir outputPath h
    simp [convertDirectory, h]
  · intro inputDir outputPath h1 h2
    simp [convertDirectory, h1, h2]
  · intro inputDir outputPath h1 h2 h3
    simp [convertDirectory, h1, h2, h3]
  · intro outputPath
    simp [convertFiles]
  · intro ps1 p ps2 outputPath hall hmiss
    have hread := readInputs_missing fs ps1 p ps2 hall hmiss
    have hne : (ps1 ++ p :: ps2).isEmpty = false := by
      cases ps1 <;> simp
    simp [convertFiles, hne, hread]

unseal List.merge List.mergeSort in
/-- Witness for C6: each precondition failure on the concrete
filesystem `fsDemo` (no `docs` path, plain file `f`, empty directory
`d`, existing file `good.md`). -/
theorem convert_precondition_failures_witness :
    convertDirectory fsDemo renderOk engineBuf optsPlain "docs" "out"
        = ([], .error (.directoryNotFound "docs"))
    ∧ convertDirectory fsDemo renderOk engineBuf optsPlain "f" "out"
        = ([], .error (.notADirectory "f"))
    ∧ convertDirectory fsDemo renderOk engineBuf optsPlain "d" "out"
        = ([], .error (.noEligibleFiles "d"))
    ∧ convertFiles fsDemo renderOk engineBuf optsPlain [] "out"
        = ([], .error .noInputFiles)
    ∧ convertFiles fsDemo renderOk engineBuf optsPlain ["good.md", "missing"] "out"
        = ([], .error (.inputNotFound "missing")) :=
  ⟨(convert_precondition_failures fsDemo renderOk engineBuf optsPlain).1 "docs" "out"
      (by decide),
   (convert_precondition_failures fsDemo renderOk engineBuf optsPlain).2.1 "f" "out"
      (by decide) (by decide),
   (convert_precondition_failures fsDemo renderOk engineBuf optsPlain).2.2.1 "d" "out"
      (by decide) (by decide) (by decide),
   (convert_precondition_failures fsDemo renderOk engineBuf optsPlain).2.2.2.1 "out",
   (convert_precondition_failures fsDemo renderOk engineBuf optsPlain).2.2.2.2
      ["good.md"] "missing" [] "out" (by decide) (by decide)⟩

/-! ### Claim C7 -/

/-- C7: for every conversion call, a failure raised before the
Writing step — precondition failure, engine failure, or unexpected
output type — leaves the destination untouched (empty mutation
trace), while a successful call's trace is exactly the Writing step
for the fully produced buffer (directory creation if needed, then the
single write, the write being last). -/
theorem no_partial_output (fs : FileSys) (render : Str → Option Str)
    (engine : Str → Except ConvError EngineOutput) (co : ConvertOptions) (mo : MergeOptions) :
    (∀ (inp out : String) (e : ConvError),
      (convertFile fs render engine co inp out).2 = .error e →
      (convertFile fs render engine co inp out).1 = [])
    ∧ (∀ inp out : String,
      (convertFile fs render engine co inp out).2 = .ok () →
      ∃ buf, convert render engine co (fs.read (fs.resolve inp)) = .ok buf ∧
        (convertFile fs render engine co inp out).1 = writeOps fs (fs.resolve out) buf)
    ∧ (∀ (inp out : String) (e : ConvError),
      (convertDirectory fs render engine mo inp out).2 = .error e →
      (convertDirectory fs render engine mo inp out).1 = [])
    ∧ (∀ inp out : String,
      (convertDirectory fs render engine mo inp out).2 = .ok () →
      ∃ buf,
        convert render engine mo.toConvertOptions
          (joinSections (separatorOf mo)
            ((eligibleFiles fs (fs.resolve inp) mo).map
              (fun f => fs.read (joinPath (fs.resolve inp) f)))) = .ok buf ∧
        (convertDirectory fs render engine mo inp out).1 = writeOps fs (fs.resolve out) buf)
    ∧ (∀ (ps : List String) (out : String) (e : ConvError),
      (convertFiles fs render engine mo ps out).2 = .error e →
      (convertFiles fs render engine mo ps out).1 = [])
    ∧ (∀ (ps : List String) (out : String),
      (convertFiles fs render engine mo ps out).2 = .ok () →
      ∃ (buf : Bytes) (contents : List Str), readInputs fs ps = .ok contents ∧
        convert render engine mo.toConvertOptions (joinSections (separatorOf mo) contents)
          = .ok buf ∧
        (convertFiles fs render engine mo ps out).1 = writeOps fs (fs.resolve out) buf)
    ∧ (∀ (out : String) (buf : Bytes),
      (writeOps fs out buf).getLast? = some (.writeFile out buf)) := by
  refine ⟨?_, ?_, ?_, ?_, ?_, ?_, ?_⟩
  · intro inp out e h
    cases hpe : fs.pathExists (fs.resolve inp) with
    | false => simp [convertFile, hpe]
    | true =>
      cases hc : convert render engine co (fs.read (fs.resolve inp)) with
      | error e' => simp [convertFile, hpe, hc]
      | ok buf => simp [convertFile, hpe, hc] at h
  · intro inp out h
    cases hpe : fs.pathExists (fs.resolve inp) with
    | false => simp [convertFile, hpe] at h
    | true =>
      cases hc : convert render engine co (fs.read (fs.resolve inp)) with
      | error e' => simp [convertFile, hpe, hc] at h
      | ok buf => exact ⟨buf, rfl, by simp [convertFile, hpe, hc]⟩
  · intro inp out e h
    cases hpe : fs.pathExists (fs.resolve inp) with
    | false => simp [convertDirectory, hpe]
    | true =>
      cases hdir : fs.isDirectory (fs.resolve inp) with
      | false => simp [convertDirectory, hpe, hdir]
      | true =>
        cases hfe : (eligibleFiles fs (fs.resolve inp) mo).isEmpty with
        | true => simp [convertDirectory, hpe, hdir, hfe]
        | false =>
          cases hc : convert render engine mo.toConvertOptions
              (joinSections (separatorOf mo)
                ((eligibleFiles fs (fs.resolve inp) mo).map
                  (fun f => fs.read (joinPath (fs.resolve inp) f)))) with
          | error e' => simp [convertDirectory, hpe, hdir, hfe, hc]
          | ok buf => simp [convertDirectory, hpe, hdir, hfe, hc] at h
  · intro inp out h
    cases hpe : fs.pathExists (fs.resolve inp) with
    | false => simp [convertDirectory, hpe] at h
    | true =>
      cases hdir : fs.isDirectory (fs.resolve inp) with
      | false => simp [convertDirectory, hpe, hdir] at h
      | true =>
        cases hfe : (eligibleFiles fs (fs.resolve inp) mo).isEmpty with
        | true => simp [convertDirectory, hpe, hdir, hfe] at h
        | false =>
          cases hc : convert render engine mo.toConvertOptions
              (joinSections (separatorOf mo)
                ((eligibleFiles fs (fs.resolve inp) mo).map
                  (fun f => fs.read (joinPath (fs.resolve inp) f)))) with
          | error e' => simp [convertDirectory, hpe, hdir, hfe, hc] at h
          | ok buf => exact ⟨buf, rfl, by simp [convertDirectory, hpe, hdir, hfe, hc]⟩
  · intro ps out e h
    cases hps : ps.isEmpty with
    | true => simp [convertFiles, hps]
    | false =>
      cases hread : readInputs fs ps with
      | error e' => simp [convertFiles, hps, hread]
      | ok contents =>
        cases hc : convert render engine mo.toConvertOptions
            (joinSections (separatorOf mo) contents) with
        | error e' => simp [convertFiles, hps, hread, hc]
        | ok buf => simp [convertFiles, hps, hread, hc] at h
  · intro ps out h
    cases hps : ps.isEmpty with
    | true => simp [convertFiles, hps] at h
    | false =>
      cases hread : readInputs fs ps with
      | error e' => simp [convertFiles, hps, hread] at h
      | ok contents =>
        cases hc : convert render engine mo.toConvertOptions
            (joinSections (separatorOf mo) contents) with
        | error e' => simp [convertFiles, hps, hread, hc] at h
        | ok buf =>
          exact ⟨buf, contents, rfl, hc, by simp [convertFiles, hps, hread, hc]⟩
  · intro out buf
    cases hpe : fs.pathExists (fs.dirname out) <;> simp [writeOps, hpe]

/-- Witness for C7: on `fsDemo`, a failing engine leaves an empty
trace, and a succeeding engine's trace is exactly the Writing step. -/
theorem no_partial_output_witness :
    (convertFile fsDemo renderOk engineFail ⟨false⟩ "good.md" "out").2
        = Except.error .renderEngineFailure
    ∧ (convertFile fsDemo renderOk engineFail ⟨false⟩ "good.md" "out").1 = []
    ∧ (convertFile fsDemo renderOk engineBuf ⟨false⟩ "good.md" "out").2 = Except.ok ()
    ∧ (∃ buf, convert renderOk engineBuf ⟨false⟩ (fsDemo.read (fsDemo.resolve "good.md"))
          = .ok buf ∧
        (convertFile fsDemo renderOk engineBuf ⟨false⟩ "good.md" "out").1
          = writeOps fsDemo (fsDemo.resolve "out") buf) :=
  ⟨rfl,
   (no_partial_output fsDemo renderOk engineFail ⟨false⟩ optsPlain).1 "good.md" "out"
      .renderEngineFailure rfl,
   rfl,
   (no_partial_output fsDemo renderOk engineBuf ⟨false⟩ optsPlain).2.1 "good.md" "out" rfl⟩

/-! ### Claim C8: comparator order lemmas -/

theorem nondigit_band (c : Char) (h : ¬ c.isDigit = true) : c < '0' ∨ '9' < c := by
  simp [Char.isDigit] at h
  rw [Char.lt_def, Char.lt_def]
  by_cases hc : (48 : UInt32) ≤ c.val
  · right
    have h9 : ('9').val = 57 := rfl
    rw [h9]
    exact h hc
  · left
    have h0 : ('0').val = 48 := rfl
    rw [h0]
    exact UInt32.not_le.mp hc

theorem digit_band (c : Char) (h : c.isDigit = true) : '0' ≤ c ∧ c ≤ '9' := by
  simp [Char.isDigit] at h
  exact ⟨Char.le_def.mpr h.1, Char.le_def.mpr h.2⟩

theorem strCmp_antisym : ∀ x y : Str, strCmp y x = -strCmp x y := by
  intro x
  induction x with
  | nil =>
    intro y
    cases y with
    | nil => simp [strCmp]
    | cons b bs => simp [strCmp]
  | cons a as ih =>
    intro y
    cases y with
    | nil => simp [strCmp]
    | cons b bs =>
      by_cases hab : a < b
      · have hba : ¬ b < a := lt_asymm hab
        simp [strCmp, hab, hba]
      · by_cases hba : b < a
        · simp [strCmp, hab, hba]
        · have heq : a = b := le_antisymm (not_lt.mp hba) (not_lt.mp hab)
          subst heq
          simp [strCmp, lt_irrefl]
          exact ih bs

theorem strCmp_eq_zero : ∀ {x y : Str}, strCmp x y = 0 → x = y := by
  intro x
  induction x with
  | nil =>
    intro y h
    cases y with
    | nil => rfl
    | cons b bs => simp [strCmp] at h
  | cons a as ih =>
    intro y h
    cases y with
    | nil => simp [strCmp] at h
    | cons b bs =>
      by_cases hab : a < b
      · simp [strCmp, hab] at h
      · by_cases hba : b < a
        · simp [strCmp, hab, hba] at h
        · have heq : a = b := le_antisymm (not_lt.mp hba) (not_lt.mp hab)
          subst heq
          simp [strCmp, lt_irrefl] at h
          rw [ih h]

theorem strCmp_trans_neg : ∀ (x y z : Str), strCmp x y < 0 → strCmp y z < 0 → strCmp x z < 0 := by
  intro x
  induction x with
  | nil =>
    intro y z h1 h2
    cases y with
    | nil => simp [strCmp] at h1
    | cons b bs =>
      cases z with
      | nil => simp [strCmp] at h2
      | cons c cs => simp [strCmp]
  | cons a as ih =>
    intro y z h1 h2
    cases y with
    | nil => simp [strCmp] at h1
    | cons b bs =>
      cases z with
      | nil => simp [strCmp] at h2
      | cons c cs =>
        have H1 : a < b ∨ (a = b ∧ strCmp as bs < 0) := by
          by_cases hab : a < b
          · exact .inl hab
          · by_cases hba : b < a
            · simp [strCmp, hab, hba] at h1
            · have heq : a = b := le_antisymm (not_lt.mp hba) (not_lt.mp hab)
              subst heq
              simp [strCmp, lt_irrefl] at h1
              exact .inr ⟨rfl, h1⟩
        have H2 : b < c ∨ (b = c ∧ strCmp bs cs < 0) := by
          by_cases hbc : b < c
          · exact .inl hbc
          · by_cases hcb : c < b
            · simp [strCmp, hbc, hcb] at h2
            · have heq : b = c := le_antisymm (not_lt.mp hcb) (not_lt.mp hbc)
              subst heq
              simp [strCmp, lt_irrefl] at h2
              exact .inr ⟨rfl, h2⟩
        rcases H1 with hab | ⟨hab, h1t⟩
        · rcases H2 with hbc | ⟨hbc, _⟩
          · have hac : a < c := lt_trans hab hbc
            simp [strCmp, hac]
          · subst hbc
            simp [strCmp, hab]
        · subst hab
          rcases H2 with hbc | ⟨hbc, h2t⟩
          · simp [strCmp, hbc]
          · subst hbc
            simp [strCmp, lt_irrefl]
            exact ih bs cs h1t h2t

theorem tokNum_some_shape {t : Str} {n : Nat} (h : tokNum t = some n) :
    ∃ c cs, t = c :: cs ∧ c.isDigit = true := by
  by_cases hc : t ≠ [] ∧ t.all Char.isDigit = true
  · obtain ⟨hne, hall⟩ := hc
    cases t with
    | nil => exact absurd rfl hne
    | cons c cs =>
      rw [List.all_cons, Bool.and_eq_true] at hall
      exact ⟨c, cs, rfl, hall.1⟩
  · rw [tokNum, if_neg hc] at h
    cases h

theorem tokNum_none_nonnum {t : Str} (hg : goodTok t) (h : tokNum t = none) :
    t = [] ∨ t.all (fun c => !c.isDigit) = true := by
  by_cases hc : t ≠ [] ∧ t.all Char.isDigit = true
  · rw [tokNum, if_pos hc] at h
    cases h
  · rcases hg with hdig | hnon
    · rcases not_and_or.mp hc with hne | hall
      · exact .inl (not_not.mp hne)
      · exact absurd hdig hall
    · exact .inr hnon

theorem nonnum_below_or_above {t : Str}
    (h : t = [] ∨ t.all (fun c => !c.isDigit) = true) :
    belowTok t ∨ aboveTok t := by
  rcases h with h | h
  · exact .inl (.inl h)
  · cases t with
    | nil => exact .inl (.inl rfl)
    | cons c cs =>
      rw [List.all_cons, Bool.and_eq_true] at h
      have hcd : ¬ c.isDigit = true := by
        have := h.1
        simp at this
        simp [this]
      rcases nondigit_band c hcd with hb | hb
      · exact .inl (.inr ⟨c, cs, rfl, hb⟩)
      · exact .inr ⟨c, cs, rfl, hb⟩

theorem strCmp_num_below {u w : Str}
    (hu : ∃ c cs, u = c :: cs ∧ c.isDigit = true) (hw : belowTok w) :
    strCmp u w = 1 := by
  obtain ⟨c, cs, rfl, hcd⟩ := hu
  rcases hw with rfl | ⟨d, ds, rfl, hd⟩
  · simp [strCmp]
  · have h0 : '0' ≤ c := (digit_band c hcd).1
    have hdc : d < c := lt_of_lt_of_le hd h0
    have hncd : ¬ c < d := lt_asymm hdc
    simp [strCmp, hncd, hdc]

theorem strCmp_num_above {u w : Str}
    (hu : ∃ c cs, u = c :: cs ∧ c.isDigit = true) (hw : aboveTok w) :
    strCmp u w = -1 := by
  obtain ⟨c, cs, rfl, hcd⟩ := hu
  obtain ⟨d, ds, rfl, hd⟩ := hw
  have h9 : c ≤ '9' := (digit_band c hcd).2
  have hcd2 : c < d := lt_of_le_of_lt h9 hd
  simp [strCmp, hcd2]

theorem strCmp_below_above {x z : Str} (hx : belowTok x) (hz : aboveTok z) :
    strCmp x z = -1 := by
  obtain ⟨d, ds, rfl, hd⟩ := hz
  rcases hx with rfl | ⟨a, as, rfl, ha⟩
  · simp [strCmp]
  · have had : a < d := lt_trans (lt_trans ha (by decide)) hd
    simp [strCmp, had]

theorem below_mono {x y : Str} (h : strCmp x y ≤ 0) (hy : belowTok y) : belowTok x := by
  cases x with
  | nil => exact .inl rfl
  | cons a as =>
    rcases hy with rfl | ⟨d, ds, rfl, hd⟩
    · simp [strCmp] at h
    · by_cases had : a < d
      · exact .inr ⟨a, as, rfl, lt_trans had hd⟩
      · by_cases hda : d < a
        · simp [strCmp, had, hda] at h
        · have heq : a = d := le_antisymm (not_lt.mp hda) (not_lt.mp had)
          subst heq
          exact .inr ⟨a, as, rfl, hd⟩

theorem above_mono {x y : Str} (h : strCmp x y ≤ 0) (hx : aboveTok x) : aboveTok y := by
  obtain ⟨a, as, rfl, ha⟩ := hx
  cases y with
  | nil => simp [strCmp] at h
  | cons d ds =>
    by_cases had : a < d
    · exact ⟨d, ds, rfl, lt_trans ha had⟩
    · by_cases hda : d < a
      · simp [strCmp, had, hda] at h
      · have heq : a = d := le_antisymm (not_lt.mp hda) (not_lt.mp had)
        subst heq
        exact ⟨a, ds, rfl, ha⟩

theorem natCmpTok_antisym : ∀ x y : Str, natCmpTok y x = -natCmpTok x y := by
  intro x y
  cases hx : tokNum x with
  | some m =>
    cases hy : tokNum y with
    | some n =>
      simp only [natCmpTok, hx, hy]
      omega
    | none => simp [natCmpTok, hx, hy, strCmp_antisym x y]
  | none =>
    cases hy : tokNum y with
    | some n => simp [natCmpTok, hx, hy, strCmp_antisym x y]
    | none => simp [natCmpTok, hx, hy, strCmp_antisym x y]

theorem natCmpTok_T2 (x y z : Str) (hx : goodTok x) (hy : goodTok y) (hz : goodTok z)
    (h1 : natCmpTok x y ≤ 0) (h2 : natCmpTok y z < 0) : natCmpTok x z < 0 := by
  cases hNx : tokNum x with
  | some mx =>
    cases hNy : tokNum y with
    | some my =>
      cases hNz : tokNum z with
      | some mz =>
        simp only [natCmpTok, hNx, hNy, hNz] at h1 h2 ⊢
        omega
      | none =>
        simp only [natCmpTok, hNx, hNy, hNz] at h1 h2 ⊢
        rcases nonnum_below_or_above (tokNum_none_nonnum hz hNz) with hb | ha
        · rw [strCmp_num_below (tokNum_some_shape hNy) hb] at h2
          omega
        · rw [strCmp_num_above (tokNum_some_shape hNx) ha]
          omega
    | none =>
      simp only [natCmpTok, hNx, hNy] at h1
      cases hNz : tokNum z with
      | some mz =>
        simp only [natCmpTok, hNx, hNy, hNz] at h2 ⊢
        rcases nonnum_below_or_above (tokNum_none_nonnum hy hNy) with hb | ha
        · rw [strCmp_num_below (tokNum_some_shape hNx) hb] at h1
          omega
        · have h := strCmp_num_above (tokNum_some_shape hNz) ha
          have h' := strCmp_antisym z y
          rw [h] at h'
          omega
      | none =>
        simp only [natCmpTok, hNx, hNy, hNz] at h2 ⊢
        rcases nonnum_below_or_above (tokNum_none_nonnum hy hNy) with hb | ha
        · rw [strCmp_num_below (tokNum_some_shape hNx) hb] at h1
          omega
        · have hza : aboveTok z := above_mono (le_of_lt h2) ha
          rw [strCmp_num_above (tokNum_some_shape hNx) hza]
          omega
  | none =>
    cases hNy : tokNum y with
    | some my =>
      simp only [natCmpTok, hNx, hNy] at h1
      have hxb : belowTok x := by
        rcases nonnum_below_or_above (tokNum_none_nonnum hx hNx) with hb | ha
        · exact hb
        · exfalso
          have h := strCmp_num_above (tokNum_some_shape hNy) ha
          have h' := strCmp_antisym y x
          rw [h] at h'
          omega
      cases hNz : tokNum z with
      | some mz =>
        simp only [natCmpTok, hNx, hNy, hNz] at h2 ⊢
        have h := strCmp_num_below (tokNum_some_shape hNz) hxb
        have h' := strCmp_antisym z x
        rw [h] at h'
        omega
      | none =>
        simp only [natCmpTok, hNx, hNy, hNz] at h2 ⊢
        rcases nonnum_below_or_above (tokNum_none_nonnum hz hNz) with hb | ha
        · rw [strCmp_num_below (tokNum_some_shape hNy) hb] at h2
          omega
        · rw [strCmp_below_above hxb ha]
          omega
    | none =>
      simp only [natCmpTok, hNx, hNy] at h1
      cases hNz : tokNum z with
      | some mz =>
        simp only [natCmpTok, hNx, hNy, hNz] at h2 ⊢
        have hyb : belowTok y := by
          rcases nonnum_below_or_above (tokNum_none_nonnum hy hNy) with hb | ha
          · exact hb
          · exfalso
            have h := strCmp_num_above (tokNum_some_shape hNz) ha
            have h' := strCmp_antisym z y
            rw [h] at h'
            omega
        have hxb : belowTok x := below_mono h1 hyb
        have h := strCmp_num_below (tokNum_some_shape hNz) hxb
        have h' := strCmp_antisym z x
        rw [h] at h'
        omega
      | none =>
        simp only [natCmpTok, hNx, hNy, hNz] at h2 ⊢
        rcases lt_or_eq_of_le h1 with hlt | he
        · exact strCmp_trans_neg x y z hlt h2
        · have hxy := strCmp_eq_zero he
          subst hxy
          exact h2

theorem natCmpTok_T3 (x y z : Str) (hx : goodTok x) (hy : goodTok y) (hz : goodTok z)
    (h1 : natCmpTok x y < 0) (h2 : natCmpTok y z ≤ 0) : natCmpTok x z < 0 := by
  by_contra hcon
  push_neg at hcon
  have hzx : natCmpTok z x ≤ 0 := by
    rw [natCmpTok_antisym x z]
    omega
  have hT := natCmpTok_T2 z x y hz hx hy hzx h1
  rw [natCmpTok_antisym y z] at hT
  omega

theorem natCmpTok_T1 (x y z : Str) (hx : goodTok x) (hy : goodTok y) (hz : goodTok z)
    (h1 : natCmpTok x y = 0) (h2 : natCmpTok y z = 0) : natCmpTok x z = 0 := by
  rcases lt_trichotomy (natCmpTok x z) 0 with h | h | h
  · exfalso
    have hyx : natCmpTok y x ≤ 0 := by
      rw [natCmpTok_antisym x y, h1]
      omega
    have hT := natCmpTok_T2 y x z hy hx hz hyx h
    omega
  · exact h
  · exfalso
    have hzx : natCmpTok z x < 0 := by
      rw [natCmpTok_antisym x z]
      omega
    have hT := natCmpTok_T3 z x y hz hx hy hzx (le_of_eq h1)
    rw [natCmpTok_antisym y z, h2] at hT
    omega

theorem naturalSortTok_nil_right : ∀ as : List Str, naturalSortTok as [] = padCmpLeft as := by
  intro as
  cases as with
  | nil => rfl
  | cons a as => rfl

theorem naturalSortTok_unfold : ∀ (as bs : List Str), as ≠ [] ∨ bs ≠ [] →
    naturalSortTok as bs
      = if natCmpTok (as.headD []) (bs.headD []) ≠ 0
        then natCmpTok (as.headD []) (bs.headD [])
        else naturalSortTok as.tail bs.tail := by
  intro as bs h
  cases as with
  | nil =>
    cases bs with
    | nil => simp at h
    | cons b bs => rfl
  | cons a as =>
    cases bs with
    | nil =>
      conv_lhs => rw [naturalSortTok_nil_right (a :: as), padCmpLeft]
      simp only [List.headD_cons, List.headD_nil, List.tail_cons, List.tail_nil]
      rw [naturalSortTok_nil_right as]
    | cons b bs => rfl

theorem padCmp_antisym : ∀ as : List Str, padCmpLeft as = -padCmpRight as := by
  intro as
  induction as with
  | nil => simp [padCmpLeft, padCmpRight]
  | cons a as ih =>
    have ha := natCmpTok_antisym a ([] : Str)
    by_cases hc : natCmpTok a [] = 0
    · have hc' : natCmpTok [] a = 0 := by rw [ha, hc]; ring
      simp [padCmpLeft, padCmpRight, hc, hc', ih]
    · have hc' : natCmpTok [] a ≠ 0 := by
        rw [ha]
        omega
      simp [padCmpLeft, padCmpRight, hc, hc']
      rw [ha]
      ring

theorem naturalSortTok_antisym : ∀ (as bs : List Str),
    naturalSortTok bs as = -naturalSortTok as bs := by
  intro as
  induction as with
  | nil =>
    intro bs
    rw [naturalSortTok_nil_right bs]
    show padCmpLeft bs = -padCmpRight bs
    exact padCmp_antisym bs
  | cons a as ih =>
    intro bs
    cases bs with
    | nil =>
      rw [naturalSortTok_nil_right (a :: as)]
      show padCmpRight (a :: as) = -padCmpLeft (a :: as)
      rw [padCmp_antisym (a :: as)]
      ring
    | cons b bs =>
      have hab := natCmpTok_antisym a b
      by_cases hc : natCmpTok a b = 0
      · have hc' : natCmpTok b a = 0 := by rw [hab, hc]; ring
        show (if natCmpTok b a ≠ 0 then natCmpTok b a else naturalSortTok bs as)
          = -(if natCmpTok a b ≠ 0 then natCmpTok a b else naturalSortTok as bs)
        simp [hc, hc']
        exact ih bs
      · have hc' : natCmpTok b a ≠ 0 := by
          rw [hab]
          omega
        show (if natCmpTok b a ≠ 0 then natCmpTok b a else naturalSortTok bs as)
          = -(if natCmpTok a b ≠ 0 then natCmpTok a b else naturalSortTok as bs)
        simp [hc, hc']
        rw [hab]

theorem headD_good (l : List Str) (hg : ∀ t ∈ l, goodTok t) : goodTok (l.headD []) := by
  cases l with
  | nil => exact Or.inl rfl
  | cons a as => exact hg a (List.mem_cons_self _ _)

theorem tail_good (l : List Str) (hg : ∀ t ∈ l, goodTok t) : ∀ t ∈ l.tail, goodTok t :=
  fun t ht => hg t ((List.tail_sublist l).subset ht)

theorem revAcc_good (acc : Str) (d : Bool)
    (hacc : acc.all (fun c => c.isDigit == d) = true) : goodTok acc.reverse := by
  cases d with
  | false =>
    refine Or.inr ?_
    rw [List.all_reverse, List.all_eq_true] at *
    intro c hc
    have := hacc c hc
    simp at this
    simp [this]
  | true =>
    refine Or.inl ?_
    rw [List.all_reverse, List.all_eq_true] at *
    intro c hc
    have := hacc c hc
    simpa using this

theorem tokenizeGo_good : ∀ (cs acc : Str) (d : Bool),
    acc.all (fun c => c.isDigit == d) = true →
    ∀ t ∈ tokenizeGo acc d cs, goodTok t := by
  intro cs
  induction cs with
  | nil =>
    intro acc d hacc t ht
    rw [tokenizeGo] at ht
    rcases List.mem_singleton.mp ht with rfl
    exact revAcc_good acc d hacc
  | cons c cs ih =>
    intro acc d hacc t ht
    rw [tokenizeGo] at ht
    by_cases hc : (c.isDigit == d) = true
    · rw [if_pos hc] at ht
      refine ih (c :: acc) d ?_ t ht
      rw [List.all_cons]
      simp [hacc, hc]
    · rw [if_neg hc] at ht
      rcases List.mem_cons.mp ht with rfl | h
      · exact revAcc_good acc d hacc
      · refine ih [c] c.isDigit ?_ t h
        simp

theorem tokenize_good : ∀ (s t : Str), t ∈ tokenize s → goodTok t := by
  intro s t ht
  cases s with
  | nil => simp [tokenize] at ht
  | cons c cs => exact tokenizeGo_good cs [c] c.isDigit (by simp) t ht

theorem naturalSortTok_trans : ∀ (n : Nat) (as bs cs : List Str),
    as.length + bs.length + cs.length ≤ n →
    (∀ t ∈ as, goodTok t) → (∀ t ∈ bs, goodTok t) → (∀ t ∈ cs, goodTok t) →
    naturalSortTok as bs ≤ 0 → naturalSortTok bs cs ≤ 0 → naturalSortTok as cs ≤ 0 := by
  intro n
  induction n with
  | zero =>
    intro as bs cs hlen _ _ _ _ _
    have ha : as = [] := List.length_eq_zero.mp (by omega)
    have hc : cs = [] := List.length_eq_zero.mp (by omega)
    subst ha
    subst hc
    simp [naturalSortTok, padCmpRight]
  | succ n ih =>
    intro as bs cs hlen hga hgb hgc h1 h2
    by_cases hab : as = [] ∧ bs = []
    · rcases hab with ⟨rfl, rfl⟩
      exact h2
    · by_cases hbc : bs = [] ∧ cs = []
      · rcases hbc with ⟨rfl, rfl⟩
        exact h1
      · by_cases hac : as = [] ∧ cs = []
        · rcases hac with ⟨rfl, rfl⟩
          simp [naturalSortTok, padCmpRight]
        · rw [naturalSortTok_unfold as bs (by tauto)] at h1
          rw [naturalSortTok_unfold bs cs (by tauto)] at h2
          rw [naturalSortTok_unfold as cs (by tauto)]
          have hgx : goodTok (as.headD []) := headD_good as hga
          have hgy : goodTok (bs.headD []) := headD_good bs hgb
          have hgz : goodTok (cs.headD []) := headD_good cs hgc
          have hlens : as.tail.length + bs.tail.length + cs.tail.length ≤ n := by
            have h1l := List.length_tail as
            have h2l := List.length_tail bs
            have h3l := List.length_tail cs
            have hab' : ¬(as.length = 0 ∧ bs.length = 0) := by
              simpa [List.length_eq_zero] using hab
            have hbc' : ¬(bs.length = 0 ∧ cs.length = 0) := by
              simpa [List.length_eq_zero] using hbc
            omega
          by_cases hc1 : natCmpTok (as.headD []) (bs.headD []) = 0
          · rw [if_neg (not_not_intro hc1)] at h1
            by_cases hc2 : natCmpTok (bs.headD []) (cs.headD []) = 0
            · rw [if_neg (not_not_intro hc2)] at h2
              have hc3 := natCmpTok_T1 _ _ _ hgx hgy hgz hc1 hc2
              rw [if_neg (not_not_intro hc3)]
              exact ih as.tail bs.tail cs.tail hlens (tail_good as hga) (tail_good bs hgb)
                (tail_good cs hgc) h1 h2
            · rw [if_pos hc2] at h2
              have h2' : natCmpTok (bs.headD []) (cs.headD []) < 0 :=
                lt_of_le_of_ne h2 hc2
              have hc3 := natCmpTok_T2 _ _ _ hgx hgy hgz (le_of_eq hc1) h2'
              rw [if_pos (by omega)]
              exact le_of_lt hc3
          · rw [if_pos hc1] at h1
            have h1' : natCmpTok (as.headD []) (bs.headD []) < 0 :=
              lt_of_le_of_ne h1 hc1
            by_cases hc2 : natCmpTok (bs.headD []) (cs.headD []) = 0
            · have hc3 := natCmpTok_T3 _ _ _ hgx hgy hgz h1' (le_of_eq hc2)
              rw [if_pos (by omega)]
              exact le_of_lt hc3
            · rw [if_pos hc2] at h2
              have h2' : natCmpTok (bs.headD []) (cs.headD []) < 0 :=
                lt_of_le_of_ne h2 hc2
              have hc3 := natCmpTok_T3 _ _ _ hgx hgy hgz h1' (le_of_lt h2')
              rw [if_pos (by omega)]
              exact le_of_lt hc3

theorem naturalSort_le_trans (a b c : Str)
    (h1 : naturalSort a b ≤ 0) (h2 : naturalSort b c ≤ 0) : naturalSort a c ≤ 0 :=
  naturalSortTok_trans
    ((tokenize a).length + (tokenize b).length + (tokenize c).length)
    (tokenize a) (tokenize b) (tokenize c) (Nat.le_refl _)
    (tokenize_good a) (tokenize_good b) (tokenize_good c) h1 h2

theorem naturalSort_total (a b : Str) : naturalSort a b ≤ 0 ∨ naturalSort b a ≤ 0 := by
  unfold naturalSort
  rw [naturalSortTok_antisym (tokenize a) (tokenize b)]
  omega

/-- C8: ordering of the document set is deterministic — the sort is a
pure function of the input list — the output is a permutation of the
input, and the sort is stable: any two names comparing equal under the
natural-sort comparator keep their original relative order (stability
of JavaScript's `Array.prototype.sort`, modelled by stable merge sort;
this uses that the comparator's `≤ 0` relation is transitive and
total, proved above). -/
theorem sortFiles_deterministic_stable :
    (∀ l1 l2 : List String, l1 = l2 → sortFiles naturalSortS l1 = sortFiles naturalSortS l2)
    ∧ (∀ l : List String, List.Perm (sortFiles naturalSortS l) l)
    ∧ (∀ (a b : String) (l : List String), naturalSortS a b = 0 →
        List.Sublist [a, b] l → List.Sublist [a, b] (sortFiles naturalSortS l)) := by
  have htrans : ∀ a b c : String,
      (fun a b => decide (naturalSortS a b ≤ 0)) a b = true →
      (fun a b => decide (naturalSortS a b ≤ 0)) b c = true →
      (fun a b => decide (naturalSortS a b ≤ 0)) a c = true := by
    intro a b c h1 h2
    simp only [decide_eq_true_eq] at h1 h2 ⊢
    exact naturalSort_le_trans _ _ _ h1 h2
  have htotal : ∀ a b : String,
      ((fun a b => decide (naturalSortS a b ≤ 0)) a b
        || (fun a b => decide (naturalSortS a b ≤ 0)) b a) = true := by
    intro a b
    simp only [Bool.or_eq_true, decide_eq_true_eq]
    exact naturalSort_total _ _
  refine ⟨fun l1 l2 h => by rw [h], fun l => List.mergeSort_perm l _, ?_⟩
  intro a b l htie hsub
  unfold sortFiles
  exact List.pair_sublist_mergeSort htrans htotal (decide_eq_true (le_of_eq htie)) hsub

unseal List.merge List.mergeSort in
/-- Witness for C8: the tied pair `01-intro.md` / `1-intro.md` keeps
its relative order through the sort of a concrete list. -/
theorem sortFiles_deterministic_stable_witness :
    naturalSortS "01-intro.md" "1-intro.md" = 0
    ∧ List.Sublist ["01-intro.md", "1-intro.md"] ["01-intro.md", "x.md", "1-intro.md"]
    ∧ List.Sublist ["01-intro.md", "1-intro.md"]
        (sortFiles naturalSortS ["01-intro.md", "x.md", "1-intro.md"]) :=
  ⟨by decide, by decide,
   sortFiles_deterministic_stable.2.2 "01-intro.md" "1-intro.md"
     ["01-intro.md", "x.md", "1-intro.md"] (by decide) (by decide)⟩

end Mermadoc
